import Mathlib

/-!
Verification of the `run` command of the kayahr/npm-utils repository
(src/main/run.ts together with src/main/colors.ts).

The development shallowly embeds the wildcard resolver
(`commandToRegExp` / `resolveCommands`), the execution engine (`runCommand`
and the sequential/parallel branches of `run`), the child-process spawn
configuration (stdio modes and environment derivation) and the output
interleaving buffer (`getPrimaryCommand` / `write` / `flush` / `flushAll`)
as executable Lean functions, and proves the specified properties about
them.
-/

set_option autoImplicit false

namespace NpmUtils

/-! ## Wildcard resolver

`commandToRegExp` in run.ts builds the regular expression
`^ escaped-pattern $` where every regex metacharacter of the pattern is
escaped, a maximal run of a single `*` is replaced by `[^:]+` and a maximal
run of two or more `*` is replaced by `.*`.  Since every non-`*` character
ends up matching itself literally (either plainly or via the inserted
backslash escape), the compiled regex is equivalent to a sequence of the
following tokens, anchored at both ends. -/

/-- Tokens of the compiled script-name pattern: a literal character,
`[^:]+` (from a single `*`), or `.*` (from a run of two or more `*`). -/
inductive Tok where
  | lit (c : Char)
  | one
  | many
deriving DecidableEq, Repr

/-- Compilation of the pattern character list into tokens, mirroring
`command.replace(/\*+/g, a => a.length === 1 ? "[^:]+" : ".*")`: a maximal
run of `*` of length 1 becomes `Tok.one`, a longer run becomes `Tok.many`,
every other character matches literally (the escaping replace only makes
regex metacharacters literal, which the token model already does). -/
def tokenize : List Char → List Tok
  | [] => []
  | c :: rest =>
    let ts := tokenize rest
    if c = '*' then
      match ts with
      | Tok.one :: rest2 => Tok.many :: rest2
      | Tok.many :: rest2 => Tok.many :: rest2
      | _ => Tok.one :: ts
    else Tok.lit c :: ts

/-- Token list of a pattern fragment without `*`: every character is a
literal. -/
def litToks (l : List Char) : List Tok :=
  l.map Tok.lit

/-- JavaScript line terminators: `.` in a regex without the `s` flag matches
any code unit except these. -/
def isLineTerm (c : Char) : Bool :=
  c == '\n' || c == '\r' || c == '\u2028' || c == '\u2029'

/-- Whether the empty string matches the token list: only `.*` tokens can
match the empty string. -/
def matchNil : List Tok → Bool
  | [] => true
  | Tok.many :: ts => matchNil ts
  | Tok.one :: _ => false
  | Tok.lit _ :: _ => false

/-- One step of regex matching for a nonempty subject `x :: xs`, given the
matcher `ih` for the tail `xs`.  `[^:]+` consumes one or more non-colon
characters; `.*` consumes zero or more non-line-terminator characters
(JavaScript `.` does not match line terminators). -/
def matchStep (x : Char) (ih : List Tok → Bool) : List Tok → Bool
  | [] => false
  | Tok.lit c :: ts => c == x && ih ts
  | Tok.one :: ts => !(x == ':') && (ih ts || ih (Tok.one :: ts))
  | Tok.many :: ts => matchStep x ih ts || (!isLineTerm x && ih (Tok.many :: ts))

/-- Anchored matching of a subject string (as a character list) against a
compiled token list. -/
def tokMatch : List Char → List Tok → Bool
  | [], ts => matchNil ts
  | x :: xs, ts => matchStep x (tokMatch xs) ts

/-- Embedding of `name.match(commandToRegExp(command))` being non-null. -/
def cmdMatch (command name : String) : Bool :=
  tokMatch name.toList (tokenize command.toList)

/-- Embedding of `command.includes("*")`. -/
def includesStar (command : String) : Bool :=
  command.toList.contains '*'

/-- Embedding of `resolveCommands` from run.ts: each pattern containing `*`
is replaced by the registered script names matching its compiled regex, in
registry declaration order; a pattern without `*` passes through literally.
The registry is abstracted to its declaration-ordered key list
(`Object.keys(packageJSON.scripts)`). -/
def resolveCommands (existingCommands : List String) (commands : List String) : List String :=
  commands.flatMap fun command =>
    if includesStar command then
      existingCommands.filter (fun existingCommand => cmdMatch command existingCommand)
    else [command]

/-! Spec-side predicates used to state the resolver claims. -/

/-- Removes the literal leading characters `p` from `s`, returning the
remainder, or `none` when `p` does not lead `s`. -/
def chopLead : List Char → List Char → Option (List Char)
  | [], s => some s
  | _ :: _, [] => none
  | c :: cs, d :: ds => if c = d then chopLead cs ds else none

/-- Spec-side predicate for pattern `X:*`: the name consists of `X`, a
colon, and exactly one further nonempty colon-free segment. -/
def directChild (x name : String) : Bool :=
  match chopLead (x.toList ++ [':']) name.toList with
  | some rest => !rest.isEmpty && rest.all (fun ch => !(ch == ':'))
  | none => false

/-- Spec-side predicate for pattern `X:**`: the name consists of `X`, a
colon, and any remainder (one or more further segments at any depth; a
colon-split of any remainder string, including the empty one, yields at
least one segment).  The amended claim C5 additionally restricts names to
ones without line terminators, see `c5_double_star_resolution`. -/
def descendant (x name : String) : Bool :=
  (chopLead (x.toList ++ [':']) name.toList).isSome

/-! ## Execution engine

`runCommand` spawns `npm run [-s] <command>` and settles its promise from
the child-process events: an `error` event rejects with the spawn error, a
`close` event with code strictly equal to `0` resolves, and any other close
code (including `null`, as after a signal) rejects with
`` `${command} exited with code ${code}` ``. -/

/-- Result of a child process: either the `close` event fired with an exit
code (`none` models JavaScript `null`, for signal-terminated processes), or
the `error` event fired with a spawn error message. -/
inductive ProcResult where
  | closed (code : Option Int)
  | spawnFailure (message : String)
deriving DecidableEq, Repr

/-- JavaScript rendering of a possibly-null exit code inside a template
literal. -/
def codeText : Option Int → String
  | some n => toString n
  | none => "null"

/-- Settlement of the `runCommand` promise for a command, given its process
result. -/
def commandResult (command : String) : ProcResult → Except String Unit
  | ProcResult.spawnFailure message => Except.error message
  | ProcResult.closed code =>
    if code = some 0 then Except.ok ()
    else Except.error (command ++ " exited with code " ++ codeText code)

/-- Sequential branch of `run`: commands are awaited one at a time in list
order; the first rejection aborts the loop.  Returns the overall result
together with the list of commands that were actually started. -/
def runSequential : List (String × ProcResult) → Except String Unit × List String
  | [] => (Except.ok (), [])
  | (c, r) :: rest =>
    match commandResult c r with
    | Except.ok _ =>
      let (res, started) := runSequential rest
      (res, c :: started)
    | Except.error e => (Except.error e, [c])

/-- Failure messages collected by the parallel branch, in the order the
rejections settle (process-completion order). -/
def errorsOf (completion : List (String × ProcResult)) : List String :=
  completion.filterMap fun cr =>
    match commandResult cr.1 cr.2 with
    | Except.ok _ => none
    | Except.error e => some e

/-- Message of the `AggregateError` thrown by the parallel branch. -/
def aggregateMessage (errors : List String) : String :=
  "Execution of " ++ toString errors.length ++ " commands failed\n  " ++
    String.intercalate "\n  " errors

/-- Parallel branch of `run`: all commands are started (in list order) and
awaited via `Promise.allSettled`; afterwards zero errors yield success, a
single error is rethrown as-is, and two or more are wrapped in one
aggregate error.  `commands` is the resolved list in start order,
`completion` the same pairs in process-completion order.  Returns the
overall result together with the list of started commands. -/
def runParallel (commands : List (String × ProcResult))
    (completion : List (String × ProcResult)) : Except String Unit × List String :=
  let started := commands.map Prod.fst
  match errorsOf completion with
  | [] => (Except.ok (), started)
  | [e] => (Except.error e, started)
  | es => (Except.error (aggregateMessage es), started)

/-! ## Spawn configuration

`runCommand` always spawns the literal executable `"npm"`.  stdin is always
inherited; stdout and stderr are piped in parallel mode and inherited
otherwise.  The child environment is a copy of the current process
environment, with `FORCE_COLOR` additionally set (only if not already
present) to the stringified color level in parallel mode. -/

/-- stdio mode of one stream of the spawned child. -/
inductive StdioMode where
  | inherit
  | pipe
deriving DecidableEq, Repr

/-- Environments are declaration-ordered association lists of variables;
`envGet` is property lookup. -/
def envGet : List (String × String) → String → Option String
  | [], _ => none
  | e :: rest, key => if e.1 = key then some e.2 else envGet rest key

/-- Embedding of `getColorLevel` from colors.ts.  The two arguments model
`process.stdout.getColorDepth?.()` and `process.stderr.getColorDepth?.()`
(`none` when the method is absent, defaulted to 1 by `?? 1`). -/
def getColorLevel (stdoutDepth stderrDepth : Option Nat) : Nat :=
  match min (stdoutDepth.getD 1) (stderrDepth.getD 1) with
  | 4 => 1
  | 8 => 2
  | 24 => 3
  | _ => 0

/-- Child environment derivation in `runCommand`: a copy of the process
environment, with `env.FORCE_COLOR ??= String(getColorLevel())` applied
only in parallel mode. -/
def childEnv (parallel : Bool) (colorLevel : Nat)
    (env : List (String × String)) : List (String × String) :=
  if parallel then
    if envGet env "FORCE_COLOR" = none then
      env ++ [("FORCE_COLOR", toString colorLevel)]
    else env
  else env

/-- The spawn invocation `runCommand` performs for one command. -/
structure SpawnCall where
  executable : String
  args : List String
  stdinMode : StdioMode
  stdoutMode : StdioMode
  stderrMode : StdioMode
  env : List (String × String)
deriving DecidableEq, Repr

/-- Spawn configuration of `runCommand command {parallel, silent}`:
`spawn("npm", ["run", ...npmOptions, command], {stdio, env})`. -/
def runCommandSpawn (command : String) (parallel silent : Bool)
    (colorLevel : Nat) (env : List (String × String)) : SpawnCall :=
  { executable := "npm"
    args := ["run"] ++ (if silent then ["-s"] else []) ++ [command]
    stdinMode := StdioMode.inherit
    stdoutMode := if parallel then StdioMode.pipe else StdioMode.inherit
    stderrMode := if parallel then StdioMode.pipe else StdioMode.inherit
    env := childEnv parallel colorLevel env }

/-- Execution mode chosen by `run`: the parallel machinery is engaged only
when the parallel flag is set and the resolved list has more than one
entry (`options.parallel && commands.length > 1`). -/
inductive ExecMode where
  | parallelMode
  | sequentialMode
deriving DecidableEq, Repr

/-- Branch selection in `run`. -/
def execMode (parallel : Bool) (commands : List String) : ExecMode :=
  if parallel && commands.length > 1 then ExecMode.parallelMode
  else ExecMode.sequentialMode

/-- The spawn calls `run` performs for a resolved command list: the
parallel branch spawns every command with parallel behavior, the
sequential branch calls `runCommand(command, {...options, parallel: false})`
for each command it reaches. -/
def runSpawnCalls (parallel silent : Bool) (commands : List String)
    (colorLevel : Nat) (env : List (String × String)) : List SpawnCall :=
  match execMode parallel commands with
  | ExecMode.parallelMode =>
    commands.map (fun c => runCommandSpawn c true silent colorLevel env)
  | ExecMode.sequentialMode =>
    commands.map (fun c => runCommandSpawn c false silent colorLevel env)

/-! ## Output interleaving buffer

State and transitions of the parallel-mode output protocol of run.ts: the
module-level `runningCommands` insertion-ordered set and `buffers` map, the
`getPrimaryCommand` / `write` / `flush` / `flushAll` functions, and the
`close`-event handler of `runCommand`.  Writes to the real streams are
recorded in an instrumented `written` list that remembers which command
produced each chunk, so that per-command ordering can be stated. -/

/-- The two real output streams. -/
inductive OutStream where
  | stdout
  | stderr
deriving DecidableEq, Repr

/-- One output chunk: target stream and text, as stored in the buffers. -/
structure Chunk where
  stream : OutStream
  text : String
deriving DecidableEq, Repr

/-- The module-level mutable state of run.ts: the insertion-ordered set of
running commands, the per-command buffers map (declaration-ordered
association list, mirroring the JavaScript `Map`), and the instrumented
record of chunks written to the real streams so far. -/
structure BufState where
  runningCommands : List String
  buffers : List (String × List Chunk)
  written : List (String × Chunk)
deriving DecidableEq, Repr

/-- Embedding of `getPrimaryCommand`: the first element of the
insertion-ordered running set, or `null`. -/
def getPrimaryCommand (s : BufState) : Option String :=
  s.runningCommands.head?

/-- Embedding of `buffers.get(command)` on the association list. -/
def bufGet : List (String × List Chunk) → String → Option (List Chunk)
  | [], _ => none
  | e :: rest, c => if e.1 = c then some e.2 else bufGet rest c

/-- Embedding of `buffers.get(command)`, `buffers.set(command, [])` when
absent (a `Map` appends a new key at the end), followed by
`buffer.push(chunk)`. -/
def bufAppend : List (String × List Chunk) → String → Chunk → List (String × List Chunk)
  | [], c, chunk => [(c, [chunk])]
  | e :: rest, c, chunk =>
    if e.1 = c then (e.1, e.2 ++ [chunk]) :: rest
    else e :: bufAppend rest c chunk

/-- Embedding of `buffers.delete(command)`: removes the (unique) entry with
the given key. -/
def bufDelete : List (String × List Chunk) → String → List (String × List Chunk)
  | [], _ => []
  | e :: rest, c => if e.1 = c then rest else e :: bufDelete rest c

/-- Embedding of `write(stream, text, command)`: the primary command writes
directly to the target stream, everyone else appends to its buffer. -/
def write (s : BufState) (command : String) (chunk : Chunk) : BufState :=
  if getPrimaryCommand s = some command then
    { s with written := s.written ++ [(command, chunk)] }
  else
    { s with buffers := bufAppend s.buffers command chunk }

/-- Embedding of `flush(command)`: writes the buffered chunks of the given
command (when any) to their target streams in recording order and deletes
the buffer; `flush(null)` does nothing. -/
def flush (s : BufState) : Option String → BufState
  | none => s
  | some command =>
    match bufGet s.buffers command with
    | none => s
    | some buffer =>
      { s with
        written := s.written ++ buffer.map (fun chunk => (command, chunk))
        buffers := bufDelete s.buffers command }

/-- Flushes the given commands in order. -/
def flushList (s : BufState) (commands : List String) : BufState :=
  commands.foldl (fun acc c => flush acc (some c)) s

/-- Embedding of `flushAll()`: flushes every buffered command, iterating
the buffer keys in map order (each flush deletes only the key being
visited, so iterating the key snapshot is equivalent to the live
iteration). -/
def flushAll (s : BufState) : BufState :=
  flushList s (s.buffers.map Prod.fst)

/-- Embedding of the `close`-event handler of `runCommand`: removes the
command from the running set and flushes the buffer of the new primary
command (if any) so that it can continue writing directly. -/
def closeCommand (s : BufState) (command : String) : BufState :=
  flush { s with runningCommands := s.runningCommands.erase command }
    (getPrimaryCommand { s with runningCommands := s.runningCommands.erase command })

/-- Events driving the parallel-mode output state: a `data` event of one
command's stdout/stderr, or the command's `close` event. -/
inductive RunEvent where
  | out (command : String) (stream : OutStream) (text : String)
  | close (command : String)
deriving DecidableEq, Repr

/-- One event-loop step. -/
def stepEvent (s : BufState) : RunEvent → BufState
  | RunEvent.out c st t => write s c ⟨st, t⟩
  | RunEvent.close c => closeCommand s c

/-- Processing of a whole event trace. -/
def runEvents (s : BufState) (events : List RunEvent) : BufState :=
  events.foldl stepEvent s

/-- Embedding of `Set.add`: appends the element unless already present. -/
def setAdd (l : List String) (c : String) : List String :=
  if c ∈ l then l else l ++ [c]

/-- Running set after the parallel start loop has called
`runningCommands.add(command)` for every command, in start order. -/
def initRunning (commands : List String) : List String :=
  commands.foldl setAdd []

/-- State at the beginning of a parallel batch: all commands registered as
running, no buffered or written output. -/
def initState (commands : List String) : BufState :=
  { runningCommands := initRunning commands, buffers := [], written := [] }

/-- Chunks written to the real streams so far on behalf of command `c`, in
write order. -/
def writtenFor (c : String) (s : BufState) : List Chunk :=
  (s.written.filter (fun e => e.1 == c)).map Prod.snd

/-- Currently buffered chunks of command `c` (empty when no buffer). -/
def bufFor (c : String) (s : BufState) : List Chunk :=
  (bufGet s.buffers c).getD []

/-- All chunks command `c` has produced so far: already written plus still
buffered. -/
def outFor (c : String) (s : BufState) : List Chunk :=
  writtenFor c s ++ bufFor c s

/-- Chunks a single event emits on behalf of command `c`. -/
def emitOf (c : String) : RunEvent → List Chunk
  | RunEvent.out c2 st t => if c2 = c then [⟨st, t⟩] else []
  | RunEvent.close _ => []

/-- Chunks command `c` emits over a whole event trace, in emission order. -/
def emittedFor (c : String) : List RunEvent → List Chunk
  | [] => []
  | e :: rest => emitOf c e ++ emittedFor c rest

/-- Keys of the buffers map. -/
def bufKeys (s : BufState) : List String :=
  s.buffers.map Prod.fst

/-- State invariant of the buffering protocol: buffer keys are unique (they
mirror a JavaScript `Map`) and the primary command never has a pending
buffer (its buffer is flushed exactly when it is promoted). -/
def StateInv (s : BufState) : Prop :=
  (bufKeys s).Nodup ∧
    ∀ p, getPrimaryCommand s = some p → bufGet s.buffers p = none

/-! ## Theorems -/

/-- C6: for every registry `R` and pattern `P` without `*`, resolving `P`
yields exactly the one-element list `[P]`, regardless of whether `P` is a
key of `R`; an absent literal name is not rejected at resolution time (the
registry is not even consulted for it). -/
theorem c6_literal_pass_through (R : List String) (P : String)
    (h : '*' ∉ P.toList) :
    resolveCommands R [P] = [P] := by
  have hs : includesStar P = false := by
    simp [includesStar]
    exact h
  simp [resolveCommands, hs]

/-- Witness for C6 at a concrete input: the literal name `clean` passes
through a registry that does not contain it. -/
theorem c6_literal_pass_through_witness :
    resolveCommands ["build", "test"] ["clean"] = ["clean"] :=
  c6_literal_pass_through ["build", "test"] "clean" (by decide)

/-- C10: a command's execution resolves exactly when the `close` code is
`0`; any other code — including `null` from a signal-terminated process —
rejects with an error naming the command and the reported code, and that
rejection is recorded as a per-command failure (it halts the sequential
loop and enters the parallel error collection). -/
theorem c10_close_code_semantics (command : String) (code : Option Int) :
    (commandResult command (ProcResult.closed code) = Except.ok () ↔ code = some 0) ∧
    (code ≠ some 0 →
      commandResult command (ProcResult.closed code) =
        Except.error (command ++ " exited with code " ++ codeText code)) ∧
    (code ≠ some 0 →
      errorsOf [(command, ProcResult.closed code)] =
        [command ++ " exited with code " ++ codeText code]) ∧
    (code ≠ some 0 →
      (runSequential [(command, ProcResult.closed code)]).1 =
        Except.error (command ++ " exited with code " ++ codeText code)) := by
  by_cases h : code = some 0 <;>
    simp [commandResult, errorsOf, runSequential, h]

/-- Witness for C10 at the concrete input `code = null` (signal
termination). -/
theorem c10_close_code_semantics_witness :
    commandResult "build" (ProcResult.closed none) =
      Except.error "build exited with code null" ∧
    errorsOf [("build", ProcResult.closed none)] =
      ["build exited with code null"] :=
  ⟨((c10_close_code_semantics "build" none).2.1 (by decide)).trans rfl,
   ((c10_close_code_semantics "build" none).2.2.1 (by decide)).trans rfl⟩

/-- C3: in sequential execution, commands run one at a time in list order;
on the first failure the loop stops with exactly that error, the commands
after the failing one are never started, and no aggregation happens (the
overall error is the failing command's own error). -/
theorem c3_sequential_halts_on_first_failure
    (pre : List (String × ProcResult)) (c : String) (r : ProcResult)
    (post : List (String × ProcResult)) (e : String)
    (hpre : ∀ x ∈ pre, commandResult x.1 x.2 = Except.ok ())
    (hfail : commandResult c r = Except.error e) :
    runSequential (pre ++ (c, r) :: post) =
      (Except.error e, pre.map Prod.fst ++ [c]) := by
  induction pre with
  | nil => simp [runSequential, hfail]
  | cons hd tl ih =>
    obtain ⟨c1, r1⟩ := hd
    have h1 : commandResult c1 r1 = Except.ok () := hpre (c1, r1) (by simp)
    have ih2 := ih (fun x hx => hpre x (by simp [hx]))
    simp [runSequential, h1, ih2]

/-- Witness for C3: sequential `[A, B, C]` where `B` fails — `A` runs, `B`
fails, `C` is never started, and the overall result is `B`'s failure
only. -/
theorem c3_sequential_halts_on_first_failure_witness :
    runSequential [("A", ProcResult.closed (some 0)), ("B", ProcResult.closed (some 1)),
        ("C", ProcResult.closed (some 0))] =
      (Except.error "B exited with code 1", ["A", "B"]) :=
  (c3_sequential_halts_on_first_failure
    [("A", ProcResult.closed (some 0))] "B" (ProcResult.closed (some 1))
    [("C", ProcResult.closed (some 0))] "B exited with code 1"
    (by intro x hx; simp at hx; subst hx; rfl) rfl).trans rfl

/-- C2: the parallel branch starts every resolved command (the started list
is the whole command list) and awaits all of them (the settlement list is a
permutation of the command list); exactly one recorded failure is rethrown
as-is, and two or more failures produce one error whose message states the
number of failed commands and each sub-error message in the order the
failures settled (process-completion order). -/
theorem c2_parallel_failure_collection
    (commands completion : List (String × ProcResult))
    (hperm : completion.Perm commands) :
    (runParallel commands completion).2 = commands.map Prod.fst ∧
    (∀ e, errorsOf completion = [e] →
      (runParallel commands completion).1 = Except.error e) ∧
    (2 ≤ (errorsOf completion).length →
      (runParallel commands completion).1 =
        Except.error ("Execution of " ++ toString (errorsOf completion).length ++
          " commands failed\n  " ++ String.intercalate "\n  " (errorsOf completion))) := by
  refine ⟨?_, ?_, ?_⟩
  · unfold runParallel
    rcases errorsOf completion with _ | ⟨e1, _ | ⟨e2, es⟩⟩ <;> rfl
  · intro e he
    simp [runParallel, he]
  · intro hlen
    rcases hes : errorsOf completion with _ | ⟨e1, _ | ⟨e2, es⟩⟩ <;>
      simp [hes] at hlen ⊢ <;>
      simp [runParallel, hes, aggregateMessage]

/-- Witness for C2: parallel `[A, B]` where both fail (B settling first) —
both are started, and the overall result is one aggregate error naming the
count and both failure texts in completion order. -/
theorem c2_parallel_failure_collection_witness :
    (runParallel
        [("A", ProcResult.closed (some 1)), ("B", ProcResult.closed (some 2))]
        [("B", ProcResult.closed (some 2)), ("A", ProcResult.closed (some 1))]).2 =
      ["A", "B"] ∧
    (runParallel
        [("A", ProcResult.closed (some 1)), ("B", ProcResult.closed (some 2))]
        [("B", ProcResult.closed (some 2)), ("A", ProcResult.closed (some 1))]).1 =
      Except.error
        "Execution of 2 commands failed\n  B exited with code 2\n  A exited with code 1" :=
  ⟨(c2_parallel_failure_collection _ _ (by decide)).1.trans rfl,
   ((c2_parallel_failure_collection _ _ (by decide)).2.2 (by decide)).trans rfl⟩

/-- C7: with the parallel flag set but a resolved list of at most one
entry, `run` takes the sequential branch and each executed command is
spawned with the parallel behavior disabled: stdout and stderr are
inherited (no piping or buffering) and the environment is passed through
unchanged (no color-hint injection). -/
theorem c7_single_entry_runs_sequentially (silent : Bool)
    (commands : List String) (colorLevel : Nat) (env : List (String × String))
    (h : commands.length ≤ 1) :
    execMode true commands = ExecMode.sequentialMode ∧
    runSpawnCalls true silent commands colorLevel env =
      commands.map (fun c => runCommandSpawn c false silent colorLevel env) ∧
    ∀ call ∈ runSpawnCalls true silent commands colorLevel env,
      call.stdoutMode = StdioMode.inherit ∧
      call.stderrMode = StdioMode.inherit ∧
      call.env = env := by
  have hlen : ¬ (1 < commands.length) := by omega
  have hmode : execMode true commands = ExecMode.sequentialMode := by
    simp [execMode, hlen]
  refine ⟨hmode, by simp [runSpawnCalls, hmode], ?_⟩
  intro call hcall
  simp only [runSpawnCalls, hmode, List.mem_map] at hcall
  obtain ⟨c, _, rfl⟩ := hcall
  simp [runCommandSpawn, childEnv]

/-- Witness for C7 at a concrete input: a one-entry resolved list with the
parallel flag set spawns one plain inherited-stdio command with an
untouched environment. -/
theorem c7_single_entry_runs_sequentially_witness :
    execMode true ["build"] = ExecMode.sequentialMode ∧
    runSpawnCalls true false ["build"] 2 [("PATH", "/usr/bin")] =
      [{ executable := "npm", args := ["run", "build"],
         stdinMode := StdioMode.inherit, stdoutMode := StdioMode.inherit,
         stderrMode := StdioMode.inherit, env := [("PATH", "/usr/bin")] }] :=
  ⟨(c7_single_entry_runs_sequentially false ["build"] 2 [("PATH", "/usr/bin")]
      (by decide)).1,
   ((c7_single_entry_runs_sequentially false ["build"] 2 [("PATH", "/usr/bin")]
      (by decide)).2.1).trans rfl⟩

/-- Appending a variable does not change lookups of other keys. -/
theorem envGet_append_other (env : List (String × String)) (fc v key : String)
    (h : key ≠ fc) :
    envGet (env ++ [(fc, v)]) key = envGet env key := by
  induction env with
  | nil => simp [envGet, if_neg (Ne.symm h)]
  | cons hd tl ih => by_cases he : hd.1 = key <;> simp [envGet, he, ih]

/-- Appending an absent variable makes its lookup return the new value. -/
theorem envGet_append_self (env : List (String × String)) (fc v : String)
    (h : envGet env fc = none) :
    envGet (env ++ [(fc, v)]) fc = some v := by
  induction env with
  | nil => simp [envGet]
  | cons hd tl ih =>
    by_cases he : hd.1 = fc
    · simp [envGet, he] at h
    · simp only [envGet, he, if_false, List.cons_append, if_neg he] at h ⊢
      exact ih h

/-- C9: each child receives the current process environment unchanged in
sequential mode; in parallel mode the only difference is that
`FORCE_COLOR` is set to the stringified computed color level when the
caller has not set it — a caller-provided `FORCE_COLOR` and every other
variable pass through untouched. -/
theorem c9_child_environment (env : List (String × String))
    (stdoutDepth stderrDepth : Option Nat) (key v : String) :
    childEnv false (getColorLevel stdoutDepth stderrDepth) env = env ∧
    (key ≠ "FORCE_COLOR" →
      envGet (childEnv true (getColorLevel stdoutDepth stderrDepth) env) key =
        envGet env key) ∧
    (envGet env "FORCE_COLOR" = none →
      envGet (childEnv true (getColorLevel stdoutDepth stderrDepth) env) "FORCE_COLOR" =
        some (toString (getColorLevel stdoutDepth stderrDepth))) ∧
    (envGet env "FORCE_COLOR" = some v →
      childEnv true (getColorLevel stdoutDepth stderrDepth) env = env) := by
  refine ⟨rfl, ?_, ?_, ?_⟩
  · intro hkey
    by_cases hfc : envGet env "FORCE_COLOR" = none
    · simp only [childEnv, if_pos hfc, if_true]
      exact envGet_append_other env _ _ key hkey
    · simp [childEnv, hfc]
  · intro hfc
    simp only [childEnv, if_pos hfc, if_true]
    exact envGet_append_self env _ _ hfc
  · intro hfc
    simp [childEnv, hfc]

/-- Witness for C9 at a concrete environment (color depths 8 and 24, level
2): sequential mode passes the environment through; parallel mode keeps
`PATH` and injects `FORCE_COLOR=2`. -/
theorem c9_child_environment_witness :
    childEnv false (getColorLevel (some 8) (some 24)) [("PATH", "/usr/bin")] =
      [("PATH", "/usr/bin")] ∧
    envGet (childEnv true (getColorLevel (some 8) (some 24)) [("PATH", "/usr/bin")])
      "PATH" = some "/usr/bin" ∧
    envGet (childEnv true (getColorLevel (some 8) (some 24)) [("PATH", "/usr/bin")])
      "FORCE_COLOR" = some "2" :=
  ⟨(c9_child_environment [("PATH", "/usr/bin")] (some 8) (some 24) "PATH" "").1,
   ((c9_child_environment [("PATH", "/usr/bin")] (some 8) (some 24) "PATH" "").2.1
      (by decide)).trans rfl,
   ((c9_child_environment [("PATH", "/usr/bin")] (some 8) (some 24) "PATH" "").2.2.1
      rfl).trans rfl⟩

/-- C8 (code bug): the claim — backed by the repository's own test
`"throws error if npm_execpath env variable is missing"` — requires a
fatal configuration error before any command runs when `npm_execpath` is
absent.  The code in src/main/run.ts never consults `npm_execpath`: it
spawns the literal executable `npm` and proceeds normally.  This theorem
evaluates the embedding at the failing input: an environment without
`npm_execpath` still produces a spawn call (execution starts), the spawn
target is the constant `npm`, and the run result is determined solely by
the child processes, with no configuration error. -/
theorem c8_npm_execpath_never_checked :
    envGet [("PATH", "/usr/bin")] "npm_execpath" = none ∧
    runSpawnCalls false false ["error:a"] 0 [("PATH", "/usr/bin")] =
      [{ executable := "npm", args := ["run", "error:a"],
         stdinMode := StdioMode.inherit, stdoutMode := StdioMode.inherit,
         stderrMode := StdioMode.inherit, env := [("PATH", "/usr/bin")] }] ∧
    (runSequential [("error:a", ProcResult.closed (some 0))]).1 = Except.ok () :=
  ⟨rfl, rfl, rfl⟩

/-! ### Resolver lemmas -/

/-- String append distributes over `toList`. -/
theorem toList_append (s t : String) : (s ++ t).toList = s.toList ++ t.toList :=
  String.data_append s t

/-- The empty token list matches exactly the empty subject. -/
theorem tokMatch_nil_toks (s : List Char) : tokMatch s [] = s.isEmpty := by
  cases s <;> rfl

/-- Tokenizing a star-free fragment yields its literal tokens. -/
theorem tokenize_no_star (l rest : List Char) (h : '*' ∉ l) :
    tokenize (l ++ rest) = litToks l ++ tokenize rest := by
  induction l with
  | nil => rfl
  | cons c cs ih =>
    have hc : c ≠ '*' := by rintro rfl; exact h (by simp)
    have hcs : '*' ∉ cs := fun hm => h (by simp [hm])
    simp [tokenize, litToks, hc, ih hcs]

/-- Matching against literal tokens followed by arbitrary tokens splits the
subject into the literal part and a remainder matched by the rest. -/
theorem tokMatch_litToks (p : List Char) (ts : List Tok) (s : List Char) :
    tokMatch s (litToks p ++ ts) = true ↔
      ∃ r, s = p ++ r ∧ tokMatch r ts = true := by
  induction p generalizing s with
  | nil => simp [litToks]
  | cons c cs ih =>
    cases s with
    | nil =>
      simp [litToks, tokMatch, matchNil]
    | cons x xs =>
      have hstep : tokMatch (x :: xs) (litToks (c :: cs) ++ ts) =
          (c == x && tokMatch xs (litToks cs ++ ts)) := rfl
      rw [hstep]
      by_cases hcx : c = x
      · subst hcx
        simp [ih]
      · simp [hcx, Ne.symm hcx]

/-- `[^:]+` alone matches exactly the nonempty colon-free subjects. -/
theorem tokMatch_one_eq (s : List Char) :
    tokMatch s [Tok.one] = (!s.isEmpty && s.all (fun ch => !(ch == ':'))) := by
  induction s with
  | nil => rfl
  | cons x xs ih =>
    have hstep : tokMatch (x :: xs) [Tok.one] =
        (!(x == ':') && (tokMatch xs [] || tokMatch xs [Tok.one])) := rfl
    rw [hstep, tokMatch_nil_toks, ih]
    cases xs <;> simp

/-- `.*` alone matches exactly the subjects without line terminators. -/
theorem tokMatch_many_eq (s : List Char) :
    tokMatch s [Tok.many] = s.all (fun ch => !isLineTerm ch) := by
  induction s with
  | nil => rfl
  | cons x xs ih => simp [tokMatch, matchStep, matchNil, ih]

/-- `chopLead` succeeds exactly on subjects led by the literal part. -/
theorem chopLead_eq_some (p : List Char) (s r : List Char) :
    chopLead p s = some r ↔ s = p ++ r := by
  induction p generalizing s with
  | nil => simp [chopLead]
  | cons c cs ih =>
    cases s with
    | nil => simp [chopLead]
    | cons x xs =>
      by_cases hcx : c = x
      · subst hcx; simp [chopLead, ih]
      · simp [chopLead, hcx, Ne.symm hcx]

/-- The compiled pattern `X:*` (star-free `X`) matches a name exactly when
the name is a direct child of `X`. -/
theorem cmdMatch_single_star (X name : String) (h : '*' ∉ X.toList) :
    cmdMatch (X ++ ":*") name = directChild X name := by
  have hX1 : '*' ∉ X.toList ++ [':'] := by
    intro hm
    rcases List.mem_append.mp hm with hm | hm
    · exact h hm
    · simp at hm
  have hpat : tokenize ((X ++ ":*").toList) = litToks (X.toList ++ [':']) ++ [Tok.one] := by
    rw [toList_append, show (":*").toList = [':', '*'] from rfl,
      show X.toList ++ [':', '*'] = (X.toList ++ [':']) ++ ['*'] by simp,
      tokenize_no_star _ _ hX1]
    rfl
  rw [Bool.eq_iff_iff]
  unfold cmdMatch directChild
  rw [hpat, tokMatch_litToks]
  cases hchop : chopLead (X.toList ++ [':']) name.toList with
  | none =>
    constructor
    · rintro ⟨r, hr, _⟩
      have h2 := (chopLead_eq_some _ _ r).mpr hr
      rw [hchop] at h2
      cases h2
    · intro hfalse
      cases hfalse
  | some rest =>
    have hrest : name.toList = (X.toList ++ [':']) ++ rest :=
      (chopLead_eq_some _ _ _).mp hchop
    constructor
    · rintro ⟨r, hr, hm⟩
      have hreq : r = rest := List.append_cancel_left ((hr.symm.trans hrest))
      subst hreq
      rw [tokMatch_one_eq] at hm
      exact hm
    · intro hb
      exact ⟨rest, hrest, by rw [tokMatch_one_eq]; exact hb⟩

/-- The compiled pattern `X:**` (star-free `X`) matches a name without line
terminators exactly when the name extends `X:`. -/
theorem cmdMatch_double_star (X name : String) (h : '*' ∉ X.toList)
    (hname : ∀ ch ∈ name.toList, isLineTerm ch = false) :
    cmdMatch (X ++ ":**") name = descendant X name := by
  have hX1 : '*' ∉ X.toList ++ [':'] := by
    intro hm
    rcases List.mem_append.mp hm with hm | hm
    · exact h hm
    · simp at hm
  have hpat : tokenize ((X ++ ":**").toList) = litToks (X.toList ++ [':']) ++ [Tok.many] := by
    rw [toList_append, show (":**").toList = [':', '*', '*'] from rfl,
      show X.toList ++ [':', '*', '*'] = (X.toList ++ [':']) ++ ['*', '*'] by simp,
      tokenize_no_star _ _ hX1]
    rfl
  rw [Bool.eq_iff_iff]
  unfold cmdMatch descendant
  rw [hpat, tokMatch_litToks]
  cases hchop : chopLead (X.toList ++ [':']) name.toList with
  | none =>
    constructor
    · rintro ⟨r, hr, _⟩
      have h2 := (chopLead_eq_some _ _ r).mpr hr
      rw [hchop] at h2
      cases h2
    · intro hfalse
      cases hfalse
  | some rest =>
    have hrest : name.toList = (X.toList ++ [':']) ++ rest :=
      (chopLead_eq_some _ _ _).mp hchop
    constructor
    · intro _
      rfl
    · intro _
      refine ⟨rest, hrest, ?_⟩
      rw [tokMatch_many_eq, List.all_eq_true]
      intro ch hch
      have hmem : ch ∈ name.toList := by
        rw [hrest]; exact List.mem_append_right _ hch
      simp [hname ch hmem]

/-- Resolution of `X:*` is the registry filtered by `directChild`. -/
theorem resolve_single_star (R : List String) (X : String) (h : '*' ∉ X.toList) :
    resolveCommands R [X ++ ":*"] = R.filter (fun name => directChild X name) := by
  have hstar : includesStar (X ++ ":*") = true := by
    unfold includesStar
    rw [toList_append, show (":*").toList = [':', '*'] from rfl]
    simp
  simp only [resolveCommands, List.flatMap_cons, List.flatMap_nil, List.append_nil, hstar,
    if_true]
  exact List.filter_congr (fun name _ => cmdMatch_single_star X name h)

/-- Resolution of `X:**` over a line-terminator-free registry is the
registry filtered by `descendant`. -/
theorem resolve_double_star (R : List String) (X : String) (h : '*' ∉ X.toList)
    (hR : ∀ name ∈ R, ∀ ch ∈ name.toList, isLineTerm ch = false) :
    resolveCommands R [X ++ ":**"] = R.filter (fun name => descendant X name) := by
  have hstar : includesStar (X ++ ":**") = true := by
    unfold includesStar
    rw [toList_append, show (":**").toList = [':', '*', '*'] from rfl]
    simp
  simp only [resolveCommands, List.flatMap_cons, List.flatMap_nil, List.append_nil, hstar,
    if_true]
  exact List.filter_congr (fun name hname => cmdMatch_double_star X name h (hR name hname))

/-- Every direct child of `X` extends `X:`. -/
theorem directChild_imp (X name : String) (h : directChild X name = true) :
    descendant X name = true := by
  unfold directChild at h
  unfold descendant
  cases hchop : chopLead (X.toList ++ [':']) name.toList with
  | none => rw [hchop] at h; cases h
  | some rest => rfl

/-- `directChild` says exactly: the name is `X`, a colon, and one nonempty
colon-free segment. -/
theorem directChild_iff (X name : String) :
    directChild X name = true ↔
      ∃ seg : String, seg ≠ "" ∧ (∀ ch ∈ seg.toList, ch ≠ ':') ∧
        name = X ++ ":" ++ seg := by
  unfold directChild
  cases hchop : chopLead (X.toList ++ [':']) name.toList with
  | none =>
    constructor
    · intro hfalse; cases hfalse
    · rintro ⟨seg, hne, hnc, rfl⟩
      have hdata : (X ++ ":" ++ seg).toList = (X.toList ++ [':']) ++ seg.toList := by
        rw [toList_append, toList_append]
        rfl
      have h2 := (chopLead_eq_some _ _ seg.toList).mpr hdata
      rw [hchop] at h2
      cases h2
  | some rest =>
    have hrest : name.toList = (X.toList ++ [':']) ++ rest :=
      (chopLead_eq_some _ _ _).mp hchop
    constructor
    · intro hb
      simp only [Bool.and_eq_true, Bool.not_eq_true', List.all_eq_true] at hb
      refine ⟨⟨rest⟩, ?_, ?_, ?_⟩
      · intro hempty
        have hnil : rest = [] := congrArg String.data hempty
        rw [hnil] at hb
        simp [List.isEmpty] at hb
      · intro ch hch
        simpa using hb.2 ch hch
      · have hdata : (X ++ ":" ++ (⟨rest⟩ : String)).toList = (X.toList ++ [':']) ++ rest := by
          rw [toList_append, toList_append]
          rfl
        exact String.ext_iff.mpr (hrest.trans hdata.symm)
    · rintro ⟨seg, hne, hnc, rfl⟩
      have hdata : (X ++ ":" ++ seg).toList = (X.toList ++ [':']) ++ seg.toList := by
        rw [toList_append, toList_append]
        rfl
      have hreq : rest = seg.toList := List.append_cancel_left (hrest.symm.trans hdata)
      subst hreq
      simp only [Bool.and_eq_true, Bool.not_eq_true', List.all_eq_true]
      refine ⟨?_, fun ch hch => by simpa using hnc ch hch⟩
      cases hsd : seg.toList with
      | nil => exact absurd (String.ext_iff.mpr hsd) hne
      | cons a as => simp [hsd, List.isEmpty]

/-- `descendant` says exactly: the name is `X`, a colon, and one or more
(possibly empty) further segments rejoined with colons — equivalently, any
remainder string at all. -/
theorem descendant_iff (X name : String) :
    descendant X name = true ↔
      ∃ segs : List String, segs ≠ [] ∧
        name = X ++ ":" ++ String.intercalate ":" segs := by
  unfold descendant
  cases hchop : chopLead (X.toList ++ [':']) name.toList with
  | none =>
    simp only [Option.isSome_none, Bool.false_eq_true, false_iff]
    rintro ⟨segs, hne, rfl⟩
    have hdata : (X ++ ":" ++ String.intercalate ":" segs).toList =
        (X.toList ++ [':']) ++ (String.intercalate ":" segs).toList := by
      rw [toList_append, toList_append]
      rfl
    have h2 := (chopLead_eq_some _ _ _).mpr hdata
    rw [hchop] at h2
    cases h2
  | some rest =>
    have hrest : name.toList = (X.toList ++ [':']) ++ rest :=
      (chopLead_eq_some _ _ _).mp hchop
    simp only [Option.isSome_some, true_iff]
    refine ⟨[⟨rest⟩], by simp, ?_⟩
    have hone : String.intercalate ":" [(⟨rest⟩ : String)] = ⟨rest⟩ := rfl
    rw [hone]
    have hdata : (X ++ ":" ++ (⟨rest⟩ : String)).toList = (X.toList ++ [':']) ++ rest := by
      rw [toList_append, toList_append]
      rfl
    exact String.ext_iff.mpr (hrest.trans hdata.symm)

/-- C4: for every registry `R` and star-free prefix `X`, resolving `X:*`
yields exactly the registered names that consist of `X`, a colon, and
exactly one further nonempty colon-free segment, in declaration order (a
filter of the registry key list). -/
theorem c4_single_star_resolution (R : List String) (X : String)
    (h : '*' ∉ X.toList) :
    resolveCommands R [X ++ ":*"] = R.filter (fun name => directChild X name) ∧
    ∀ name : String, directChild X name = true ↔
      ∃ seg : String, seg ≠ "" ∧ (∀ ch ∈ seg.toList, ch ≠ ':') ∧
        name = X ++ ":" ++ seg :=
  ⟨resolve_single_star R X h, fun name => directChild_iff X name⟩

/-- Witness for C4 on the spec's concrete scenario: `build:*` selects only
the one-segment child `build:compile`, and `build:compile` is a direct
child of `build`. -/
theorem c4_single_star_resolution_witness :
    resolveCommands ["build:compile", "build:schema:a", "build:schema:b"]
      ["build" ++ ":*"] = ["build:compile"] ∧
    directChild "build" "build:compile" = true :=
  ⟨((c4_single_star_resolution
      ["build:compile", "build:schema:a", "build:schema:b"] "build" (by decide)).1).trans
    (by decide),
   ((c4_single_star_resolution
      ["build:compile", "build:schema:a", "build:schema:b"] "build" (by decide)).2
      "build:compile").mpr ⟨"compile", by decide, by decide, by decide⟩⟩

/-- C5 counterexample: over the registry `["x:a\nb"]` (a name containing a
newline), `x:*` resolves to the name but `x:**` resolves to nothing — the
`X:**` result is not a superset of the `X:*` result, and the name, although
it extends `x:`, is not yielded by `x:**` (JavaScript `.` in the compiled
`.*` does not match line terminators). -/
theorem c5_newline_counterexample :
    resolveCommands ["x:a\nb"] ["x:*"] = ["x:a\nb"] ∧
    resolveCommands ["x:a\nb"] ["x:**"] = [] ∧
    descendant "x" "x:a\nb" = true := by
  refine ⟨by decide, by decide, by decide⟩

/-- C5 (amended): for every registry `R` whose names contain no JavaScript
line terminators and every star-free prefix `X`, resolving `X:**` yields
exactly the registered names extending `X:` (one or more further segments
at any depth), in declaration order, and the result contains the `X:*`
result as a sublist.  (Without the line-terminator restriction this fails,
see the counterexample.) -/
theorem c5_double_star_resolution (R : List String) (X : String)
    (h : '*' ∉ X.toList)
    (hR : ∀ name ∈ R, ∀ ch ∈ name.toList, isLineTerm ch = false) :
    resolveCommands R [X ++ ":**"] = R.filter (fun name => descendant X name) ∧
    (∀ name : String, descendant X name = true ↔
      ∃ segs : List String, segs ≠ [] ∧
        name = X ++ ":" ++ String.intercalate ":" segs) ∧
    List.Sublist (resolveCommands R [X ++ ":*"]) (resolveCommands R [X ++ ":**"]) := by
  refine ⟨resolve_double_star R X h hR, fun name => descendant_iff X name, ?_⟩
  rw [resolve_single_star R X h, resolve_double_star R X h hR]
  exact List.monotone_filter_right R (fun name => directChild_imp X name)

/-- Witness for C5 on the spec's concrete scenario: `build:**` selects all
descendants, and `build:schema:a` extends `build:` with the segments
`["schema", "a"]`. -/
theorem c5_double_star_resolution_witness :
    resolveCommands ["build:compile", "build:schema:a", "build:schema:b"]
      ["build" ++ ":**"] = ["build:compile", "build:schema:a", "build:schema:b"] ∧
    descendant "build" "build:schema:a" = true :=
  ⟨((c5_double_star_resolution
      ["build:compile", "build:schema:a", "build:schema:b"] "build"
      (by decide) (by decide)).1).trans (by decide),
   ((c5_double_star_resolution
      ["build:compile", "build:schema:a", "build:schema:b"] "build"
      (by decide) (by decide)).2.1 "build:schema:a").mpr
    ⟨["schema", "a"], by decide, by decide⟩⟩

/-! ### Output interleaving buffer lemmas -/

/-- Looking up an absent key yields nothing. -/
theorem bufGet_eq_none_of_not_mem (B : List (String × List Chunk)) (c : String)
    (h : c ∉ B.map Prod.fst) : bufGet B c = none := by
  induction B with
  | nil => rfl
  | cons e rest ih =>
    have h1 : e.1 ≠ c := fun hh => h (by simp [hh])
    simp [bufGet, h1, ih (fun hm => h (by simp [hm]))]

/-- `bufAppend` appends the chunk at the end of the buffer of its key. -/
theorem bufGet_bufAppend_self (B : List (String × List Chunk)) (c : String) (k : Chunk) :
    bufGet (bufAppend B c k) c = some ((bufGet B c).getD [] ++ [k]) := by
  induction B with
  | nil => simp [bufAppend, bufGet]
  | cons e rest ih =>
    by_cases he : e.1 = c
    · simp [bufAppend, bufGet, he]
    · simp [bufAppend, bufGet, he, ih]

/-- `bufAppend` leaves other keys untouched. -/
theorem bufGet_bufAppend_other (B : List (String × List Chunk)) (c c2 : String)
    (k : Chunk) (h : c2 ≠ c) :
    bufGet (bufAppend B c k) c2 = bufGet B c2 := by
  induction B with
  | nil => simp [bufAppend, bufGet, Ne.symm h]
  | cons e rest ih =>
    by_cases he : e.1 = c
    · have h2 : ¬ e.1 = c2 := by rw [he]; exact Ne.symm h
      simp [bufAppend, bufGet, he, h2, Ne.symm h]
    · by_cases he2 : e.1 = c2 <;> simp [bufAppend, bufGet, he, he2, ih, h]

/-- Keys after `bufAppend` are the old keys plus possibly the new one. -/
theorem mem_bufAppend_keys (B : List (String × List Chunk)) (c : String) (k : Chunk)
    (x : String) :
    x ∈ (bufAppend B c k).map Prod.fst ↔ x ∈ B.map Prod.fst ∨ x = c := by
  induction B with
  | nil => simp [bufAppend]
  | cons e rest ih =>
    by_cases he : e.1 = c
    · subst he
      simp [bufAppend]
      tauto
    · simp [bufAppend, he, ih]
      tauto

/-- `bufAppend` preserves uniqueness of the keys. -/
theorem bufAppend_nodup (B : List (String × List Chunk)) (c : String) (k : Chunk)
    (hnd : (B.map Prod.fst).Nodup) :
    ((bufAppend B c k).map Prod.fst).Nodup := by
  induction B with
  | nil => simp [bufAppend]
  | cons e rest ih =>
    rw [List.map_cons, List.nodup_cons] at hnd
    by_cases he : e.1 = c
    · simp [bufAppend, he, List.nodup_cons]
      exact ⟨by simpa [he] using hnd.1, hnd.2⟩
    · rw [show bufAppend (e :: rest) c k = e :: bufAppend rest c k by simp [bufAppend, he]]
      rw [List.map_cons, List.nodup_cons]
      refine ⟨?_, ih hnd.2⟩
      intro hmem
      rcases (mem_bufAppend_keys rest c k e.1).mp hmem with hm | hm
      · exact hnd.1 hm
      · exact he hm

/-- `bufDelete` produces a sublist of the original association list. -/
theorem bufDelete_sublist (B : List (String × List Chunk)) (c : String) :
    List.Sublist (bufDelete B c) B := by
  induction B with
  | nil => simp [bufDelete]
  | cons e rest ih =>
    by_cases he : e.1 = c
    · rw [show bufDelete (e :: rest) c = rest by simp [bufDelete, he]]
      exact List.sublist_cons_self e rest
    · rw [show bufDelete (e :: rest) c = e :: bufDelete rest c by simp [bufDelete, he]]
      exact ih.cons₂ e

/-- Deleting a key removes it entirely (keys are unique). -/
theorem bufGet_bufDelete_self (B : List (String × List Chunk)) (c : String)
    (hnd : (B.map Prod.fst).Nodup) :
    bufGet (bufDelete B c) c = none := by
  induction B with
  | nil => rfl
  | cons e rest ih =>
    rw [List.map_cons, List.nodup_cons] at hnd
    by_cases he : e.1 = c
    · rw [show bufDelete (e :: rest) c = rest by simp [bufDelete, he]]
      exact bufGet_eq_none_of_not_mem rest c (he ▸ hnd.1)
    · rw [show bufDelete (e :: rest) c = e :: bufDelete rest c by simp [bufDelete, he]]
      simp [bufGet, he, ih hnd.2]

/-- Deleting a key leaves other keys untouched. -/
theorem bufGet_bufDelete_other (B : List (String × List Chunk)) (c c2 : String)
    (h : c2 ≠ c) :
    bufGet (bufDelete B c) c2 = bufGet B c2 := by
  induction B with
  | nil => simp [bufDelete]
  | cons e rest ih =>
    by_cases he : e.1 = c
    · have h2 : ¬ e.1 = c2 := by rw [he]; exact Ne.symm h
      simp [bufDelete, bufGet, he, h2, Ne.symm h]
    · by_cases he2 : e.1 = c2 <;> simp [bufDelete, bufGet, he, he2, ih, h]

/-- Chunks tagged with their own command survive the `writtenFor` filter. -/
theorem filter_tagged_self (q : String) (b : List Chunk) :
    (((b.map (fun k => (q, k))).filter (fun e => e.1 == q)).map Prod.snd) = b := by
  induction b with
  | nil => rfl
  | cons k ks ih => simp [ih]

/-- Chunks tagged with a different command are dropped by the filter. -/
theorem filter_tagged_other (q c : String) (b : List Chunk) (h : q ≠ c) :
    ((b.map (fun k => (q, k))).filter (fun e => e.1 == c)) = [] := by
  induction b with
  | nil => rfl
  | cons k ks ih => simp [ih, h]

/-- Effect of one `write`: the invariant is preserved, and the writing
command's chunk sequence (written plus buffered) grows by exactly that
chunk while every other command's sequence is untouched. -/
theorem write_spec (s : BufState) (cw : String) (k : Chunk) (hinv : StateInv s) :
    StateInv (write s cw k) ∧
    ∀ c2, outFor c2 (write s cw k) = outFor c2 s ++ (if cw = c2 then [k] else []) := by
  by_cases hp : getPrimaryCommand s = some cw
  · have hw : write s cw k = { s with written := s.written ++ [(cw, k)] } := by
      simp [write, hp]
    rw [hw]
    refine ⟨⟨hinv.1, hinv.2⟩, ?_⟩
    intro c2
    unfold outFor writtenFor bufFor
    by_cases hc : cw = c2
    · subst hc
      have hbuf : bufGet s.buffers cw = none := hinv.2 cw hp
      simp [hbuf, List.filter_append]
    · simp [List.filter_append, hc]
  · have hw : write s cw k = { s with buffers := bufAppend s.buffers cw k } := by
      simp [write, hp]
    rw [hw]
    constructor
    · refine ⟨bufAppend_nodup s.buffers cw k hinv.1, ?_⟩
      intro p hpp
      have hpc : p ≠ cw := fun hh => hp (by rw [← hh]; exact hpp)
      dsimp only
      rw [bufGet_bufAppend_other s.buffers cw p k hpc]
      exact hinv.2 p hpp
    · intro c2
      unfold outFor writtenFor bufFor
      dsimp only
      by_cases hc : cw = c2
      · subst hc
        rw [bufGet_bufAppend_self]
        simp
      · rw [bufGet_bufAppend_other s.buffers cw c2 k (Ne.symm hc)]
        simp [hc]

/-- Effect of `flush(command)`: buffer keys stay unique, the flushed
command's buffer is gone, the running set is untouched, and no command's
chunk sequence changes (buffered chunks only move to the written list, in
order). -/
theorem flush_spec (s : BufState) (q : String) (hnd : (bufKeys s).Nodup) :
    (bufKeys (flush s (some q))).Nodup ∧
    bufGet (flush s (some q)).buffers q = none ∧
    (flush s (some q)).runningCommands = s.runningCommands ∧
    ∀ c2, outFor c2 (flush s (some q)) = outFor c2 s := by
  cases hq : bufGet s.buffers q with
  | none =>
    have he : flush s (some q) = s := by simp [flush, hq]
    rw [he]
    exact ⟨hnd, hq, rfl, fun _ => rfl⟩
  | some buffer =>
    have he : flush s (some q) =
        { s with written := s.written ++ buffer.map (fun k => (q, k)),
                 buffers := bufDelete s.buffers q } := by
      simp [flush, hq]
    rw [he]
    refine ⟨?_, ?_, rfl, ?_⟩
    · exact List.Nodup.sublist ((bufDelete_sublist s.buffers q).map Prod.fst) hnd
    · exact bufGet_bufDelete_self s.buffers q hnd
    · intro c2
      unfold outFor writtenFor bufFor
      dsimp only
      by_cases hc : c2 = q
      · subst hc
        rw [bufGet_bufDelete_self s.buffers c2 hnd]
        simp [List.filter_append, filter_tagged_self, hq]
      · rw [bufGet_bufDelete_other s.buffers q c2 hc]
        simp [List.filter_append, filter_tagged_other q c2 buffer (fun hh => hc hh.symm)]

/-- Effect of a `close` event: the invariant is preserved (in particular
the newly promoted primary command has just been flushed) and no command's
chunk sequence changes. -/
theorem closeCommand_spec (s : BufState) (c : String) (hinv : StateInv s) :
    StateInv (closeCommand s c) ∧
    ∀ c2, outFor c2 (closeCommand s c) = outFor c2 s := by
  unfold closeCommand
  cases hp : getPrimaryCommand { s with runningCommands := s.runningCommands.erase c } with
  | none =>
    rw [show flush { s with runningCommands := s.runningCommands.erase c } none =
        { s with runningCommands := s.runningCommands.erase c } from rfl]
    refine ⟨⟨hinv.1, ?_⟩, fun _ => rfl⟩
    intro p hpp
    rw [hp] at hpp
    cases hpp
  | some q =>
    have hf := flush_spec { s with runningCommands := s.runningCommands.erase c } q hinv.1
    refine ⟨⟨hf.1, ?_⟩, hf.2.2.2⟩
    intro p hpp
    have hrun : getPrimaryCommand
        (flush { s with runningCommands := s.runningCommands.erase c } (some q)) =
        getPrimaryCommand { s with runningCommands := s.runningCommands.erase c } := by
      unfold getPrimaryCommand
      rw [hf.2.2.1]
    rw [hrun, hp] at hpp
    cases hpp
    exact hf.2.1

/-- Effect of one event-loop step: the invariant is preserved and every
command's chunk sequence grows by exactly what the event emits for it. -/
theorem stepEvent_spec (s : BufState) (e : RunEvent) (hinv : StateInv s) :
    StateInv (stepEvent s e) ∧
    ∀ c, outFor c (stepEvent s e) = outFor c s ++ emitOf c e := by
  cases e with
  | out cw st t =>
    have hw := write_spec s cw ⟨st, t⟩ hinv
    exact ⟨hw.1, fun c => by rw [show stepEvent s (RunEvent.out cw st t) =
      write s cw ⟨st, t⟩ from rfl, hw.2 c]; rfl⟩
  | close cw =>
    have hc := closeCommand_spec s cw hinv
    exact ⟨hc.1, fun c => by rw [show stepEvent s (RunEvent.close cw) =
      closeCommand s cw from rfl, hc.2 c]; simp [emitOf]⟩

/-- Effect of a whole event trace: the invariant is preserved and every
command's chunk sequence is its previous sequence followed by everything it
emitted, in emission order. -/
theorem runEvents_spec (events : List RunEvent) (s : BufState) (hinv : StateInv s) :
    StateInv (runEvents s events) ∧
    ∀ c, outFor c (runEvents s events) = outFor c s ++ emittedFor c events := by
  induction events generalizing s with
  | nil => exact ⟨hinv, fun c => by simp [runEvents, emittedFor]⟩
  | cons e rest ih =>
    have hstep := stepEvent_spec s e hinv
    have hrest := ih (stepEvent s e) hstep.1
    refine ⟨hrest.1, fun c => ?_⟩
    rw [show runEvents s (e :: rest) = runEvents (stepEvent s e) rest from rfl,
      hrest.2 c, hstep.2 c, emittedFor, List.append_assoc]

/-- Flushing all buffer keys in map order moves every buffered chunk to the
written list, after the chunks already written, preserving per-command
order. -/
theorem flushList_spec (B : List (String × List Chunk)) :
    ∀ (r : List String) (w : List (String × Chunk)), (B.map Prod.fst).Nodup →
      ∀ c, writtenFor c (flushList ⟨r, B, w⟩ (B.map Prod.fst)) = outFor c ⟨r, B, w⟩ := by
  induction B with
  | nil =>
    intro r w _ c
    simp [flushList, outFor, writtenFor, bufFor, bufGet]
  | cons e rest ih =>
    intro r w hnd c
    obtain ⟨q, b⟩ := e
    rw [List.map_cons, List.nodup_cons] at hnd
    have hq : bufGet ((q, b) :: rest) q = some b := by simp [bufGet]
    have hdel : bufDelete ((q, b) :: rest) q = rest := by simp [bufDelete]
    have hflush : flush ⟨r, (q, b) :: rest, w⟩ (some q) =
        ⟨r, rest, w ++ b.map (fun k => (q, k))⟩ := by
      simp [flush, hq, hdel]
    have hstep : flushList ⟨r, (q, b) :: rest, w⟩ (q :: rest.map Prod.fst) =
        flushList ⟨r, rest, w ++ b.map (fun k => (q, k))⟩ (rest.map Prod.fst) := by
      rw [show flushList ⟨r, (q, b) :: rest, w⟩ (q :: rest.map Prod.fst) =
        flushList (flush ⟨r, (q, b) :: rest, w⟩ (some q)) (rest.map Prod.fst) from rfl,
        hflush]
    rw [List.map_cons, hstep, ih r (w ++ b.map (fun k => (q, k))) hnd.2 c]
    unfold outFor writtenFor bufFor
    by_cases hc : c = q
    · subst hc
      rw [show (⟨r, rest, w ++ b.map (fun k => (c, k))⟩ : BufState).buffers = rest from rfl,
        bufGet_eq_none_of_not_mem rest c hnd.1]
      simp [List.filter_append, filter_tagged_self, bufGet]
    · have hq2 : bufGet ((q, b) :: rest) c = bufGet rest c := by
        rw [show bufGet ((q, b) :: rest) c =
          (if q = c then some b else bufGet rest c) from rfl,
          if_neg (fun hh => hc hh.symm)]
      rw [show (⟨r, rest, w ++ b.map (fun k => (q, k))⟩ : BufState).buffers = rest from rfl,
        show (⟨r, (q, b) :: rest, w⟩ : BufState).buffers = (q, b) :: rest from rfl, hq2]
      simp [List.filter_append, filter_tagged_other q c b (fun hh => hc hh.symm)]

/-- After `flushAll`, every command's written output equals everything it
ever produced (written plus buffered, in order); nothing is dropped. -/
theorem flushAll_writtenFor (s : BufState) (hnd : (bufKeys s).Nodup) (c : String) :
    writtenFor c (flushAll s) = outFor c s := by
  obtain ⟨r, B, w⟩ := s
  exact flushList_spec B r w hnd c

/-- C1: in parallel mode, a chunk from the primary command is written
immediately to the real stream and a chunk from a non-primary command is
appended to that command's buffer; consequently, over any event trace of a
parallel batch (arbitrary interleaving of data and close events), after the
final flush every command's chunks appear on the real streams exactly once
and in emission order — per-command FIFO with no output dropped. -/
theorem c1_parallel_output_protocol (commands : List String)
    (events : List RunEvent) (c : String) :
    (∀ s k, getPrimaryCommand s = some c →
      write s c k = { s with written := s.written ++ [(c, k)] }) ∧
    (∀ s k, getPrimaryCommand s ≠ some c →
      write s c k = { s with buffers := bufAppend s.buffers c k }) ∧
    writtenFor c (flushAll (runEvents (initState commands) events)) =
      emittedFor c events := by
  refine ⟨fun s k h => by simp [write, h], fun s k h => by simp [write, h], ?_⟩
  have hinv : StateInv (initState commands) := by
    refine ⟨by simp [bufKeys, initState], fun p _ => rfl⟩
  have hrun := runEvents_spec events (initState commands) hinv
  rw [flushAll_writtenFor (runEvents (initState commands) events) hrun.1.1 c, hrun.2 c]
  simp [outFor, writtenFor, bufFor, bufGet, initState]

/-- Witness for C1 on a concrete three-command batch: `a` is primary, `b`
and `c` are buffered; `b`'s two chunks surface in emission order at the
final flush even though `a` wrote in between, and the two `write` branches
are exercised at concrete states. -/
theorem c1_parallel_output_protocol_witness :
    write { runningCommands := ["b", "c"], buffers := [], written := [] } "b"
        ⟨OutStream.stdout, "B1"⟩ =
      { runningCommands := ["b", "c"], buffers := [],
        written := [("b", ⟨OutStream.stdout, "B1"⟩)] } ∧
    write { runningCommands := ["a", "b"], buffers := [], written := [] } "b"
        ⟨OutStream.stdout, "B1"⟩ =
      { runningCommands := ["a", "b"],
        buffers := [("b", [⟨OutStream.stdout, "B1"⟩])], written := [] } ∧
    writtenFor "b"
      (flushAll (runEvents (initState ["a", "b", "c"])
        [RunEvent.out "b" OutStream.stdout "B1",
         RunEvent.out "a" OutStream.stdout "A1",
         RunEvent.out "c" OutStream.stderr "C1",
         RunEvent.out "b" OutStream.stdout "B2",
         RunEvent.close "b", RunEvent.close "a",
         RunEvent.out "c" OutStream.stdout "C2",
         RunEvent.close "c"])) =
      [⟨OutStream.stdout, "B1"⟩, ⟨OutStream.stdout, "B2"⟩] :=
  ⟨((c1_parallel_output_protocol [] [] "b").1
      { runningCommands := ["b", "c"], buffers := [], written := [] }
      ⟨OutStream.stdout, "B1"⟩ (by decide)).trans rfl,
   ((c1_parallel_output_protocol [] [] "b").2.1
      { runningCommands := ["a", "b"], buffers := [], written := [] }
      ⟨OutStream.stdout, "B1"⟩ (by decide)).trans rfl,
   ((c1_parallel_output_protocol ["a", "b", "c"]
      [RunEvent.out "b" OutStream.stdout "B1",
       RunEvent.out "a" OutStream.stdout "A1",
       RunEvent.out "c" OutStream.stderr "C1",
       RunEvent.out "b" OutStream.stdout "B2",
       RunEvent.close "b", RunEvent.close "a",
       RunEvent.out "c" OutStream.stdout "C2",
       RunEvent.close "c"] "b").2.2).trans (by decide)⟩

end NpmUtils
